import Mathlib

set_option maxHeartbeats 1000000
set_option maxRecDepth 4000

/-!
Verification of the DeRec library core (Rust sources) against its
natural-language specification, via a shallow embedding in Lean 4.

Conventions of the embedding:
- Rust byte buffers (`Vec<u8>`, `&[u8]`) are `List ℕ`, each entry a byte value.
- External cryptographic primitives that live outside this repository
  (AES-256-GCM, SHA-256/384, ML-KEM-768, secp256k1 scalar multiplication,
  protobuf encode/decode) are abstracted as explicit function parameters;
  the theorems carry the correctness facts of those primitives as hypotheses.
- Fallible Rust code (`Result`) becomes `Except`; a Rust panic (slice out of
  bounds, `unwrap` of `None`) is modelled by an outer `Option` whose `none`
  marks the abort: a panicking call returns no value at all to the caller.
- The Shamir field `ark_bw6_761::Fr` is a prime field whose modulus exceeds
  `2 ^ 256`; the embedding is parametric in the prime `p`, and hypotheses of
  form `s < p` record the in-range facts that hold automatically at the
  377-bit modulus of the source.
-/

/-! ## Byte and bit helpers (shamir.rs: bytes_to_bits_be and serialization) -/

/-- Embedding of `bytes_to_bits_be` restricted to a single byte: the inner
loop of shamir.rs writes, for `i` from 7 down to 0, the bit `(byte >> i) & 1`. -/
def byteBitsBE (b : ℕ) : List Bool :=
  ((List.range 8).reverse).map (fun i => b / 2 ^ i % 2 = 1)

/-- Embedding of `bytes_to_bits_be` (shamir.rs): big-endian bit expansion,
byte by byte, MSB first inside each byte. -/
def bytes_to_bits_be (x : List ℕ) : List Bool :=
  x.flatMap byteBitsBE

/-- Value of a big-endian bit string, as computed by the arkworks
`BigInteger::from_bits_be` used in `share`. -/
def bitsToNatBE (bits : List Bool) : ℕ :=
  bits.foldl (fun acc b => 2 * acc + (if b then 1 else 0)) 0

/-- Value of a big-endian byte string (bytes assumed < 256). -/
def bytesToNatBE (x : List ℕ) : ℕ :=
  x.foldl (fun acc b => 256 * acc + b) 0

/-- Fixed-width big-endian byte serialization of a natural number, as produced
by the arkworks `BigInteger::to_bytes_be` (width in bytes given first). -/
def natToBytesBE : ℕ → ℕ → List ℕ
  | 0, _ => []
  | k + 1, v => natToBytesBE k (v / 256) ++ [v % 256]

theorem natToBytesBE_length (k v : ℕ) : (natToBytesBE k v).length = k := by
  induction k generalizing v with
  | zero => rfl
  | succ k ih => simp [natToBytesBE, ih]

theorem natToBytesBE_split (b a v : ℕ) :
    natToBytesBE (a + b) v = natToBytesBE a (v / 256 ^ b) ++ natToBytesBE b v := by
  induction b generalizing v with
  | zero => simp [natToBytesBE]
  | succ b ih =>
      show natToBytesBE (a + b + 1) v = _
      rw [natToBytesBE, ih (v / 256), natToBytesBE]
      rw [Nat.div_div_eq_div_mul, List.append_assoc, pow_succ, mul_comm (256 ^ b) 256]

theorem bitsToNatBE_foldl (l : List Bool) (a : ℕ) :
    l.foldl (fun acc b => 2 * acc + (if b then 1 else 0)) a =
      a * 2 ^ l.length + bitsToNatBE l := by
  induction l generalizing a with
  | nil => simp [bitsToNatBE]
  | cons b l ih =>
      simp only [bitsToNatBE, List.foldl_cons, List.length_cons]
      rw [ih, ih]
      ring

theorem bitsToNatBE_append (l₁ l₂ : List Bool) :
    bitsToNatBE (l₁ ++ l₂) =
      bitsToNatBE l₁ * 2 ^ l₂.length + bitsToNatBE l₂ := by
  show List.foldl _ 0 (l₁ ++ l₂) = _
  rw [List.foldl_append]
  exact bitsToNatBE_foldl l₂ _

theorem ite_bit_eq (v : ℕ) : (if v % 2 = 1 then (1 : ℕ) else 0) = v % 2 := by
  rcases Nat.mod_two_eq_zero_or_one v with h | h <;> simp [h]

theorem bitsToNatBE_byte (b : ℕ) : bitsToNatBE (byteBitsBE b) = b % 256 := by
  have h : (List.range 8).reverse = [7, 6, 5, 4, 3, 2, 1, 0] := by decide
  simp only [byteBitsBE, h, List.map_cons, List.map_nil, bitsToNatBE, List.foldl_cons,
    List.foldl_nil, decide_eq_true_eq]
  rw [show (2 : ℕ) ^ 7 = 128 by norm_num, show (2 : ℕ) ^ 6 = 64 by norm_num,
    show (2 : ℕ) ^ 5 = 32 by norm_num, show (2 : ℕ) ^ 4 = 16 by norm_num,
    show (2 : ℕ) ^ 3 = 8 by norm_num, show (2 : ℕ) ^ 2 = 4 by norm_num,
    show (2 : ℕ) ^ 1 = 2 by norm_num, show (2 : ℕ) ^ 0 = 1 by norm_num]
  rw [ite_bit_eq (b / 128), ite_bit_eq (b / 64), ite_bit_eq (b / 32), ite_bit_eq (b / 16),
    ite_bit_eq (b / 8), ite_bit_eq (b / 4), ite_bit_eq (b / 2), ite_bit_eq (b / 1)]
  omega

theorem byteBitsBE_length (b : ℕ) : (byteBitsBE b).length = 8 := by
  simp [byteBitsBE]

theorem bitsToNatBE_bytes (x : List ℕ) :
    bitsToNatBE (bytes_to_bits_be x) = bytesToNatBE (x.map (· % 256)) := by
  induction x using List.reverseRecOn with
  | nil => rfl
  | append_singleton l b ih =>
      rw [bytes_to_bits_be] at ih ⊢
      rw [List.flatMap_append]
      simp only [List.flatMap_cons, List.flatMap_nil, List.append_nil]
      rw [bitsToNatBE_append, byteBitsBE_length, bitsToNatBE_byte, ih]
      simp only [List.map_append, List.map_cons, List.map_nil, bytesToNatBE,
        List.foldl_append, List.foldl_cons, List.foldl_nil]
      ring

theorem bytesToNatBE_lt (x : List ℕ) (hx : ∀ b ∈ x, b < 256) :
    bytesToNatBE x < 256 ^ x.length := by
  induction x using List.reverseRecOn with
  | nil => simp [bytesToNatBE]
  | append_singleton l b ih =>
      have hb : b < 256 := hx b (by simp)
      have hl : bytesToNatBE l < 256 ^ l.length :=
        ih (fun c hc => hx c (by simp [hc]))
      simp only [bytesToNatBE, List.foldl_append, List.foldl_cons, List.foldl_nil,
        List.length_append, List.length_cons, List.length_nil]
      show 256 * bytesToNatBE l + b < 256 ^ (l.length + (0 + 1))
      rw [pow_succ]
      have := Nat.mul_le_mul_left 256 (Nat.succ_le_of_lt hl)
      omega

theorem natToBytesBE_bytesToNatBE (x : List ℕ) (hx : ∀ b ∈ x, b < 256) :
    natToBytesBE x.length (bytesToNatBE x) = x := by
  induction x using List.reverseRecOn with
  | nil => rfl
  | append_singleton l b ih =>
      have hb : b < 256 := hx b (by simp)
      have hv : bytesToNatBE (l ++ [b]) = 256 * bytesToNatBE l + b := by
        simp [bytesToNatBE, List.foldl_append]
      have hlen : (l ++ [b]).length = l.length + 1 := by simp
      rw [hlen, hv, natToBytesBE]
      have hdiv : (256 * bytesToNatBE l + b) / 256 = bytesToNatBE l := by omega
      have hmod : (256 * bytesToNatBE l + b) % 256 = b := by omega
      rw [hdiv, hmod, ih (fun c hc => hx c (by simp [hc]))]

/-! ## Channel cipher (src/cryptography/src/channel/mod.rs)

AES-256-GCM itself comes from the external `aes_gcm` crate; it is abstracted
as a pair of functions `enc`/`dec` over (key, nonce, data), each returning
`none` on a library-level failure. -/

/-- Error type of channel/mod.rs. -/
inductive DerecChannelError where
  | EncryptionError
  | DecryptionError
deriving DecidableEq, Repr

/-- Abstraction of the external AES-256-GCM implementation: `enc key nonce msg`
and `dec key nonce ctxt`, with `none` for a library-reported failure. -/
structure AesGcm where
  enc : List ℕ → List ℕ → List ℕ → Option (List ℕ)
  dec : List ℕ → List ℕ → List ℕ → Option (List ℕ)

/-- Embedding of `encrypt_message` (channel/mod.rs): encrypt under the first
12 bytes of the nonce seed and emit `nonce(12) ++ gcm_output`. -/
def encrypt_message (A : AesGcm) (msg : List ℕ) (key : List ℕ) (nonce : List ℕ) :
    Except DerecChannelError (List ℕ) :=
  match A.enc key (nonce.take 12) msg with
  | none => .error .EncryptionError
  | some e => .ok (nonce.take 12 ++ e)

/-- Embedding of `decrypt_message` (channel/mod.rs). The source slices
`ctxt[0..12]` unconditionally; on an input shorter than 12 bytes that slice
aborts the program, which the embedding marks by the outer `none`. -/
def decrypt_message (A : AesGcm) (ctxt : List ℕ) (key : List ℕ) :
    Option (Except DerecChannelError (List ℕ)) :=
  if ctxt.length < 12 then
    none
  else
    some (match A.dec key (ctxt.take 12) (ctxt.drop 12) with
      | none => .error .DecryptionError
      | some m => .ok m)

/-- C5: for every 32-byte key, 32-byte nonce seed and plaintext, sealing then
opening round-trips (assuming the external AES-GCM pair round-trips), and the
sealed frame is the first 12 bytes of the seed followed by the GCM output. -/
theorem channel_seal_open_roundtrip (A : AesGcm)
    (hgcm : ∀ k n m c, A.enc k n m = some c → A.dec k n c = some m)
    (msg key nonce : List ℕ) (hnonce : 12 ≤ nonce.length)
    (frame : List ℕ) (henc : encrypt_message A msg key nonce = .ok frame) :
    (∃ e, A.enc key (nonce.take 12) msg = some e ∧ frame = nonce.take 12 ++ e)
      ∧ decrypt_message A frame key = some (.ok msg) := by
  unfold encrypt_message at henc
  rcases he : A.enc key (nonce.take 12) msg with _ | e
  · rw [he] at henc
    exact absurd henc (by simp)
  · rw [he] at henc
    have hframe : frame = nonce.take 12 ++ e := by
      have := henc
      simp only [Except.ok.injEq] at this
      exact this.symm
    refine ⟨⟨e, rfl, hframe⟩, ?_⟩
    have htk : (nonce.take 12).length = 12 := by
      rw [List.length_take]
      omega
    have hlen : frame.length = 12 + e.length := by
      rw [hframe, List.length_append, htk]
    have htake : frame.take 12 = nonce.take 12 := by
      rw [hframe, List.take_left' htk]
    have hdrop : frame.drop 12 = e := by
      rw [hframe, List.drop_left' htk]
    rw [decrypt_message, if_neg (by omega), htake, hdrop, hgcm _ _ _ _ he]

/-- C5 witness: concrete instantiation with an identity GCM pair. -/
theorem channel_seal_open_roundtrip_witness :
    (12 ≤ (List.replicate 32 0 : List ℕ).length
        ∧ encrypt_message ⟨fun _ _ m => some m, fun _ _ c => some c⟩ [1, 2, 3]
            (List.replicate 32 0) (List.replicate 32 0) =
            .ok (List.replicate 12 0 ++ [1, 2, 3]))
      ∧ decrypt_message ⟨fun _ _ m => some m, fun _ _ c => some c⟩
          (List.replicate 12 0 ++ [1, 2, 3]) (List.replicate 32 0) =
          some (.ok [1, 2, 3]) := by
  refine ⟨⟨by simp, rfl⟩, ?_⟩
  exact (channel_seal_open_roundtrip ⟨fun _ _ m => some m, fun _ _ c => some c⟩
    (fun k n m c h => by
      simp only [Option.some.injEq] at h
      rw [h])
    [1, 2, 3] (List.replicate 32 0) (List.replicate 32 0) (by simp)
    (List.replicate 12 0 ++ [1, 2, 3]) rfl).2

/-- C10: decrypt_message slices the leading 12 bytes unconditionally, so every
input shorter than 12 bytes aborts (no `DecryptionError` is returned), while
inputs of length at least 12 always return a value to the caller. -/
theorem decrypt_message_short_input_aborts (A : AesGcm) (ctxt key : List ℕ) :
    (ctxt.length < 12 → decrypt_message A ctxt key = none)
      ∧ (12 ≤ ctxt.length → ∃ r, decrypt_message A ctxt key = some r) := by
  constructor
  · intro h
    simp [decrypt_message, h]
  · intro h
    rw [decrypt_message, if_neg (by omega)]
    exact ⟨_, rfl⟩

/-- C10 witness: a 3-byte ciphertext aborts decryption. -/
theorem decrypt_message_short_input_aborts_witness :
    ([0, 1, 2] : List ℕ).length < 12
      ∧ decrypt_message ⟨fun _ _ m => some m, fun _ _ c => some c⟩ [0, 1, 2] [] = none := by
  exact ⟨by decide,
    (decrypt_message_short_input_aborts ⟨fun _ _ m => some m, fun _ _ c => some c⟩
      [0, 1, 2] []).1 (by decide)⟩

/-! ## Verification orchestrator (src/library/src/verification/verification.rs)

SHA-384 comes from the external `sha2` crate and is abstracted as a function
parameter; the incremental `hasher.update` calls concatenate their inputs. -/

/-- Status value `StatusEnum::Ok as i32` of the protobuf schema. -/
def statusOk : Int := 0

/-- Embedding of the protobuf `Result { status, memo }` message. -/
structure DerecResult where
  status : Int
  memo : String
deriving DecidableEq, Repr

/-- Embedding of `VerifyShareRequestMessage { version, nonce }`. -/
structure VerifyShareRequestMessage where
  version : Int
  nonce : List ℕ
deriving DecidableEq, Repr

/-- Embedding of `VerifyShareResponseMessage { result, version, nonce, hash }`. -/
structure VerifyShareResponseMessage where
  result : Option DerecResult
  version : Int
  nonce : List ℕ
  hash : List ℕ
deriving DecidableEq, Repr

/-- Embedding of `generate_verification_response` (verification.rs): hash the
share content followed by the request nonce with SHA-384 and package the
response with an OK status, echoing version and nonce. -/
def generate_verification_response (sha384 : List ℕ → List ℕ)
    (_secret_id : List ℕ) (_channel_id : ℕ) (share_content : List ℕ)
    (request : VerifyShareRequestMessage) :
    Except String VerifyShareResponseMessage :=
  .ok {
    result := some ⟨statusOk, ""⟩
    version := request.version
    nonce := request.nonce
    hash := sha384 (share_content ++ request.nonce) }

/-- Embedding of `verify_share_response` (verification.rs): recompute
SHA-384 over the share content followed by the response nonce and compare. -/
def verify_share_response (sha384 : List ℕ → List ℕ)
    (_secret_id : List ℕ) (_channel_id : ℕ) (share_content : List ℕ)
    (response : VerifyShareResponseMessage) : Except String Bool :=
  if sha384 (share_content ++ response.nonce) = response.hash then
    .ok true
  else
    .error "Verification failed: Hash mismatch"

/-- C9: verification succeeds exactly when the response hash equals
SHA-384 of the share content followed by the response nonce, and a response
produced by generate_verification_response over the same content verifies. -/
theorem verify_share_response_correct (sha384 : List ℕ → List ℕ)
    (secret_id : List ℕ) (channel_id : ℕ) (share_content : List ℕ)
    (response : VerifyShareResponseMessage) :
    (verify_share_response sha384 secret_id channel_id share_content response = .ok true
        ↔ response.hash = sha384 (share_content ++ response.nonce))
      ∧ ∀ (request : VerifyShareRequestMessage) (r : VerifyShareResponseMessage),
          generate_verification_response sha384 secret_id channel_id share_content request =
              .ok r →
          verify_share_response sha384 secret_id channel_id share_content r = .ok true := by
  constructor
  · unfold verify_share_response
    constructor
    · intro hok
      by_cases h : sha384 (share_content ++ response.nonce) = response.hash
      · exact h.symm
      · rw [if_neg h] at hok
        exact absurd hok (by simp)
    · intro h
      rw [if_pos h.symm]
  · intro request r hgen
    unfold generate_verification_response at hgen
    simp only [Except.ok.injEq] at hgen
    unfold verify_share_response
    rw [← hgen]
    simp

/-- C9 witness: identity hash, concrete share content and nonce. -/
theorem verify_share_response_correct_witness :
    verify_share_response (fun l => l) [] 0 [1, 2]
        ⟨some ⟨statusOk, ""⟩, 7, [3], [1, 2, 3]⟩ = .ok true
      ∧ generate_verification_response (fun l => l) [] 0 [1, 2] ⟨7, [3]⟩ =
          .ok ⟨some ⟨statusOk, ""⟩, 7, [3], [1, 2, 3]⟩ := by
  constructor
  · exact (verify_share_response_correct (fun l => l) [] 0 [1, 2]
      ⟨some ⟨statusOk, ""⟩, 7, [3], [1, 2, 3]⟩).1.mpr rfl
  · rfl

/-! ## Pairing protocol (src/cryptography/src/pairing/mod.rs)

The external primitives are abstracted: ML-KEM-768 (`ml_kem` crate) as keygen,
encapsulate and decapsulate over an abstract rng state threaded exactly as the
ChaCha8 csprng is threaded in the source; secp256k1 scalar multiplication
(arkworks) as an abstract scalar-on-point action; SHA-256 as a function on
points (the serialization of the shared point composed with the hash).
Serialization round trips of the external library are modelled as identities:
byte strings on the wire are represented by their decoded values. -/

/-- Error type of pairing/mod.rs. -/
inductive DerecPairingError where
  | SerializationError
  | MLKemEncapsulationError
  | MLKemDecapsulationError
  | PairingStateError
deriving DecidableEq, Repr

/-- Abstraction of the external primitives used by the pairing protocol.
`R` is the csprng state (seeded from 32-byte entropy), `Dk`/`Ek`/`Ct` the
ML-KEM key and ciphertext types, `Scalar`/`Point` the secp256k1 types.
Shared secrets are 32-byte arrays, modelled as functions `Fin 32 → ℕ`. -/
structure PairingPrimitives (R Dk Ek Ct Scalar Point : Type) where
  seedRng : List ℕ → R
  mlkemKeygen : R → (Dk × Ek) × R
  mlkemEncaps : Ek → R → Option ((Ct × (Fin 32 → ℕ)) × R)
  mlkemDecaps : Dk → Ct → Option (Fin 32 → ℕ)
  eciesKeygen : R → Option ((Scalar × Point) × R)
  pointMul : Scalar → Point → Point
  hashPoint : Point → Fin 32 → ℕ

/-- Embedding of `PairingContactMessageMaterial`. -/
structure PairingContactMessageMaterial (Ek Point : Type) where
  mlkem_encapsulation_key : Ek
  ecies_public_key : Point

/-- Embedding of `PairingSecretKeyMaterial`. -/
structure PairingSecretKeyMaterial (Dk Scalar : Type) where
  mlkem_decapsulation_key : Option Dk
  mlkem_shared_secret : Option (Fin 32 → ℕ)
  ecies_secret_key : Scalar

/-- Embedding of `PairingRequestMessageMaterial`. -/
structure PairingRequestMessageMaterial (Ct Point : Type) where
  mlkem_ciphertext : Ct
  ecies_public_key : Point

/-- Embedding of `pairing_ecies::derive_shared_key`: multiply the public point
by the secret scalar, serialize, and hash with SHA-256 (the two external steps
are fused in `hashPoint`). -/
def derive_shared_key {R Dk Ek Ct Scalar Point : Type}
    (P : PairingPrimitives R Dk Ek Ct Scalar Point)
    (sk : Scalar) (pk : Point) : Fin 32 → ℕ :=
  P.hashPoint (P.pointMul sk pk)

/-- Embedding of `contact_message` (pairing/mod.rs): seed the csprng from the
entropy, generate an ML-KEM keypair then an ECIES keypair, and return the
public material together with the initiator secret material. -/
def contact_message {R Dk Ek Ct Scalar Point : Type}
    (P : PairingPrimitives R Dk Ek Ct Scalar Point) (entropy : List ℕ) :
    Except DerecPairingError
      (PairingContactMessageMaterial Ek Point × PairingSecretKeyMaterial Dk Scalar) :=
  let r0 := P.seedRng entropy
  let kg := P.mlkemKeygen r0
  match P.eciesKeygen kg.2 with
  | none => .error .SerializationError
  | some ((sk, pk), _) =>
      .ok (⟨kg.1.2, pk⟩, ⟨some kg.1.1, none, sk⟩)

/-- Embedding of `pairing_request_message` (pairing/mod.rs): seed the csprng,
encapsulate against the received encapsulation key, generate an ECIES keypair,
and return the request material with the responder secret material. -/
def pairing_request_message {R Dk Ek Ct Scalar Point : Type}
    (P : PairingPrimitives R Dk Ek Ct Scalar Point) (entropy : List ℕ)
    (received : PairingContactMessageMaterial Ek Point) :
    Except DerecPairingError
      (PairingRequestMessageMaterial Ct Point × PairingSecretKeyMaterial Dk Scalar) :=
  let r0 := P.seedRng entropy
  match P.mlkemEncaps received.mlkem_encapsulation_key r0 with
  | none => .error .MLKemEncapsulationError
  | some ((ct, shared_key), r1) =>
      match P.eciesKeygen r1 with
      | none => .error .SerializationError
      | some ((sk, pk), _) =>
          .ok (⟨ct, pk⟩, ⟨none, some shared_key, sk⟩)

/-- Embedding of `finish_pairing_requestor` (pairing/mod.rs): require the
stored ML-KEM shared secret, derive the ECIES shared key from the contact
material, and XOR the two byte-wise. -/
def finish_pairing_requestor {R Dk Ek Ct Scalar Point : Type}
    (P : PairingPrimitives R Dk Ek Ct Scalar Point)
    (secrets : PairingSecretKeyMaterial Dk Scalar)
    (received : PairingContactMessageMaterial Ek Point) :
    Except DerecPairingError (Fin 32 → ℕ) :=
  match secrets.mlkem_shared_secret with
  | none => .error .PairingStateError
  | some mlkem_shared_key =>
      let ecies_shared_key := derive_shared_key P secrets.ecies_secret_key
        received.ecies_public_key
      .ok (fun i => Nat.xor (mlkem_shared_key i) (ecies_shared_key i))

/-- Embedding of `finish_pairing_contactor` (pairing/mod.rs): require the
stored ML-KEM decapsulation key, decapsulate the received ciphertext, derive
the ECIES shared key from the request material, and XOR the two byte-wise. -/
def finish_pairing_contactor {R Dk Ek Ct Scalar Point : Type}
    (P : PairingPrimitives R Dk Ek Ct Scalar Point)
    (secrets : PairingSecretKeyMaterial Dk Scalar)
    (received : PairingRequestMessageMaterial Ct Point) :
    Except DerecPairingError (Fin 32 → ℕ) :=
  match secrets.mlkem_decapsulation_key with
  | none => .error .PairingStateError
  | some mlkem_dk =>
      match P.mlkemDecaps mlkem_dk received.mlkem_ciphertext with
      | none => .error .MLKemDecapsulationError
      | some mlkem_shared_key =>
          let ecies_shared_key := derive_shared_key P secrets.ecies_secret_key
            received.ecies_public_key
          .ok (fun i => Nat.xor (mlkem_shared_key i) (ecies_shared_key i))

/-- C4: for all entropies, a successful two-message handshake makes both
finales succeed with the same 32-byte key, equal to the byte-wise XOR of the
ML-KEM shared secret with the hash of the ECDH shared point. Hypotheses:
correctness of the external ML-KEM (decapsulation inverts encapsulation
against a generated keypair) and commutativity of ECDH between two generated
keypairs. -/
theorem pairing_handshake_agree {R Dk Ek Ct Scalar Point : Type}
    (P : PairingPrimitives R Dk Ek Ct Scalar Point)
    (hdecaps : ∀ (r r' rr : R) (dk : Dk) (ek : Ek) (ct : Ct) (ss : Fin 32 → ℕ)
      (rr2 : R), P.mlkemKeygen r = ((dk, ek), rr) →
      P.mlkemEncaps ek r' = some ((ct, ss), rr2) →
      P.mlkemDecaps dk ct = some ss)
    (hecdh : ∀ (r1 r2 rr1 rr2 : R) (sk1 sk2 : Scalar) (pk1 pk2 : Point),
      P.eciesKeygen r1 = some ((sk1, pk1), rr1) →
      P.eciesKeygen r2 = some ((sk2, pk2), rr2) →
      P.pointMul sk1 pk2 = P.pointMul sk2 pk1)
    (eI eR : List ℕ)
    (contact : PairingContactMessageMaterial Ek Point)
    (secI : PairingSecretKeyMaterial Dk Scalar)
    (request : PairingRequestMessageMaterial Ct Point)
    (secR : PairingSecretKeyMaterial Dk Scalar)
    (hc : contact_message P eI = .ok (contact, secI))
    (hr : pairing_request_message P eR contact = .ok (request, secR)) :
    ∃ (K ss : Fin 32 → ℕ),
      finish_pairing_contactor P secI request = .ok K
        ∧ finish_pairing_requestor P secR contact = .ok K
        ∧ secR.mlkem_shared_secret = some ss
        ∧ K = fun i => Nat.xor (ss i)
            (P.hashPoint (P.pointMul secR.ecies_secret_key contact.ecies_public_key) i) := by
  simp only [contact_message] at hc
  rcases hekI : P.eciesKeygen (P.mlkemKeygen (P.seedRng eI)).2 with _ | ⟨⟨skI, pkI⟩, rI⟩ <;>
    rw [hekI] at hc
  · exact absurd hc (by simp)
  simp only [Except.ok.injEq, Prod.mk.injEq] at hc
  obtain ⟨hcontact, hsecI⟩ := hc
  simp only [pairing_request_message] at hr
  split at hr
  · exact absurd hr (by simp)
  rename_i ct ss r1 henc
  split at hr
  · exact absurd hr (by simp)
  rename_i skR pkR rR hekR
  simp only [Except.ok.injEq, Prod.mk.injEq] at hr
  obtain ⟨hrequest, hsecR⟩ := hr
  have hdk : secI.mlkem_decapsulation_key = some (P.mlkemKeygen (P.seedRng eI)).1.1 := by
    rw [← hsecI]
  have hskI : secI.ecies_secret_key = skI := by rw [← hsecI]
  have hssR : secR.mlkem_shared_secret = some ss := by rw [← hsecR]
  have hskR : secR.ecies_secret_key = skR := by rw [← hsecR]
  have hdec : P.mlkemDecaps (P.mlkemKeygen (P.seedRng eI)).1.1 request.mlkem_ciphertext =
      some ss := by
    have hek : contact.mlkem_encapsulation_key = (P.mlkemKeygen (P.seedRng eI)).1.2 := by
      rw [← hcontact]
    have hct : request.mlkem_ciphertext = ct := by rw [← hrequest]
    rw [hct]
    refine hdecaps (P.seedRng eI) (P.seedRng eR) (P.mlkemKeygen (P.seedRng eI)).2
      (P.mlkemKeygen (P.seedRng eI)).1.1 (P.mlkemKeygen (P.seedRng eI)).1.2 ct ss r1
      rfl ?_
    · rw [← hek]
      exact henc
  have hcomm : P.pointMul skI request.ecies_public_key =
      P.pointMul skR contact.ecies_public_key := by
    have hpkR : request.ecies_public_key = pkR := by rw [← hrequest]
    have hpkI : contact.ecies_public_key = pkI := by rw [← hcontact]
    rw [hpkR, hpkI]
    exact hecdh _ _ _ _ _ _ _ _ hekI hekR
  refine ⟨fun i => Nat.xor (ss i)
      (P.hashPoint (P.pointMul secR.ecies_secret_key contact.ecies_public_key) i), ss,
      ?_, ?_, hssR, rfl⟩
  · rw [finish_pairing_contactor, hdk]
    simp only
    rw [hdec]
    simp only [derive_shared_key, hskI, hskR, hcomm]
  · rw [finish_pairing_requestor, hssR]
    simp only [derive_shared_key, hskR]

/-- Concrete instantiation of the pairing primitives over natural numbers,
used by the handshake witnesses. -/
def pairingPrimNat : PairingPrimitives ℕ ℕ ℕ ℕ ℕ ℕ where
  seedRng := fun _ => 0
  mlkemKeygen := fun r => ((1, 2), r)
  mlkemEncaps := fun ek r => some ((ek, fun _ => 9), r)
  mlkemDecaps := fun _ _ => some (fun _ => 9)
  eciesKeygen := fun r => some ((r + 3, r + 4), r + 1)
  pointMul := fun s pt => s + pt
  hashPoint := fun pt _ => pt

/-- C4 witness: both finales agree on the key for the concrete primitives. -/
theorem pairing_handshake_agree_witness :
    contact_message pairingPrimNat [] = .ok (⟨2, 0 + 4⟩, ⟨some 1, none, 0 + 3⟩)
      ∧ pairing_request_message pairingPrimNat [] ⟨2, 0 + 4⟩ =
          .ok (⟨2, 0 + 4⟩, ⟨none, some (fun _ => 9), 0 + 3⟩)
      ∧ finish_pairing_contactor pairingPrimNat ⟨some 1, none, 0 + 3⟩ ⟨2, 0 + 4⟩ =
          finish_pairing_requestor pairingPrimNat ⟨none, some (fun _ => 9), 0 + 3⟩
            ⟨2, 0 + 4⟩ := by
  refine ⟨rfl, rfl, ?_⟩
  obtain ⟨K, ss, h1, h2, _, _⟩ := pairing_handshake_agree pairingPrimNat
    (by
      intro r r' rr dk ek ct ss rr2 hkg henc
      simp only [pairingPrimNat, Option.some.injEq, Prod.mk.injEq] at hkg henc
      obtain ⟨⟨hdk, hek⟩, hrr⟩ := hkg
      obtain ⟨⟨hct, hss⟩, hrr2⟩ := henc
      rw [← hss]
      rfl)
    (by
      intro r1 r2 rr1 rr2 sk1 sk2 pk1 pk2 h1 h2
      simp only [pairingPrimNat, Option.some.injEq, Prod.mk.injEq] at h1 h2
      obtain ⟨⟨hsk1, hpk1⟩, _⟩ := h1
      obtain ⟨⟨hsk2, hpk2⟩, _⟩ := h2
      show sk1 + pk2 = sk2 + pk1
      omega)
    [] [] ⟨2, 0 + 4⟩ ⟨some 1, none, 0 + 3⟩ ⟨2, 0 + 4⟩ ⟨none, some (fun _ => 9), 0 + 3⟩
    rfl rfl
  rw [h1, h2]

/-- C7: finishing the handshake in the wrong role fails with the
PairingState error: a responder secret (no decapsulation key) rejected by
finish_pairing_contactor, an initiator secret (no ML-KEM shared secret)
rejected by finish_pairing_requestor. -/
theorem finish_pairing_wrong_role_fails {R Dk Ek Ct Scalar Point : Type}
    (P : PairingPrimitives R Dk Ek Ct Scalar Point) :
    (∀ (eR : List ℕ) (contact : PairingContactMessageMaterial Ek Point)
        (request : PairingRequestMessageMaterial Ct Point)
        (secR : PairingSecretKeyMaterial Dk Scalar),
      pairing_request_message P eR contact = .ok (request, secR) →
      ∀ received, finish_pairing_contactor P secR received = .error .PairingStateError)
      ∧ (∀ (eI : List ℕ) (contact : PairingContactMessageMaterial Ek Point)
          (secI : PairingSecretKeyMaterial Dk Scalar),
        contact_message P eI = .ok (contact, secI) →
        ∀ received, finish_pairing_requestor P secI received = .error .PairingStateError) := by
  constructor
  · intro eR contact request secR hr received
    simp only [pairing_request_message] at hr
    split at hr
    · exact absurd hr (by simp)
    rename_i ct ss r1 henc
    split at hr
    · exact absurd hr (by simp)
    rename_i sk pk rr hek
    simp only [Except.ok.injEq, Prod.mk.injEq] at hr
    have hnone : secR.mlkem_decapsulation_key = none := by rw [← hr.2]
    rw [finish_pairing_contactor, hnone]
  · intro eI contact secI hc received
    simp only [contact_message] at hc
    rcases hek : P.eciesKeygen (P.mlkemKeygen (P.seedRng eI)).2 with _ | ⟨⟨sk, pk⟩, rr⟩ <;>
      rw [hek] at hc
    · exact absurd hc (by simp)
    simp only [Except.ok.injEq, Prod.mk.injEq] at hc
    have hnone : secI.mlkem_shared_secret = none := by rw [← hc.2]
    rw [finish_pairing_requestor, hnone]

/-- C7 witness: wrong-role finales fail on concrete handshake secrets. -/
theorem finish_pairing_wrong_role_fails_witness :
    pairing_request_message pairingPrimNat [] ⟨2, 4⟩ =
        .ok (⟨2, 0 + 4⟩, ⟨none, some (fun _ => 9), 0 + 3⟩)
      ∧ contact_message pairingPrimNat [] = .ok (⟨2, 0 + 4⟩, ⟨some 1, none, 0 + 3⟩)
      ∧ finish_pairing_contactor pairingPrimNat ⟨none, some (fun _ => 9), 0 + 3⟩ ⟨2, 4⟩ =
          .error .PairingStateError
      ∧ finish_pairing_requestor pairingPrimNat ⟨some 1, none, 0 + 3⟩ ⟨2, 4⟩ =
          .error .PairingStateError := by
  refine ⟨rfl, rfl, ?_, ?_⟩
  · exact (finish_pairing_wrong_role_fails pairingPrimNat).1 [] ⟨2, 4⟩ ⟨2, 0 + 4⟩
      ⟨none, some (fun _ => 9), 0 + 3⟩ rfl ⟨2, 4⟩
  · exact (finish_pairing_wrong_role_fails pairingPrimNat).2 [] ⟨2, 0 + 4⟩
      ⟨some 1, none, 0 + 3⟩ rfl ⟨2, 4⟩

/-! ## VSS share validation (src/cryptography/src/vss/utils.rs)

The `VSSShare` record and the `DerecVSSError` enumeration live in the VSS
module root, whose fields and variants are fixed by their uses in utils.rs,
recovery.rs and sharing.rs. SHA-256 is abstracted as a function parameter. -/

/-- Embedding of the `VSSShare` record: Shamir point `(x, y)`, the shared
ciphertext, the Merkle-root commitment, and the Merkle path as
`(is_left, sibling_hash)` pairs, exactly as consumed by `detect_error`. -/
structure VSSShare where
  x : List ℕ
  y : List ℕ
  encrypted_secret : List ℕ
  commitment : List ℕ
  merkle_path : List (Bool × List ℕ)
deriving DecidableEq, Repr

/-- Embedding of the `DerecVSSError` variants used across the sources. -/
inductive DerecVSSError where
  | InconsistentCommitments
  | InconsistentCiphertexts
  | CorruptShares
deriving DecidableEq, Repr

/-- Embedding of `leaf_hash` (utils.rs): SHA-256 of `x ++ y`. -/
def leaf_hash (sha256 : List ℕ → List ℕ) (x y : List ℕ) : List ℕ :=
  sha256 (x ++ y)

/-- Embedding of `intermediate_hash` (utils.rs): SHA-256 of `left ++ right`. -/
def intermediate_hash (sha256 : List ℕ → List ℕ) (left right : List ℕ) : List ℕ :=
  sha256 (left ++ right)

/-- Merkle-root recomputation of `detect_error` (utils.rs): start from the
leaf hash of `(x, y)` and fold the path, hashing the sibling on the side
indicated by its `is_left` flag. -/
def merkleRootFrom (sha256 : List ℕ → List ℕ) (s : VSSShare) : List ℕ :=
  s.merkle_path.foldl
    (fun on_path ih =>
      if ih.1 then intermediate_hash sha256 ih.2 on_path
      else intermediate_hash sha256 on_path ih.2)
    (leaf_hash sha256 s.x s.y)

/-- Per-iteration body of the `detect_error` loop, with the reference
commitment and ciphertext of the first share fixed: the first failing check
of the share determines the error. -/
def shareCheck (sha256 : List ℕ → List ℕ) (commitment encrypted_secret : List ℕ)
    (s : VSSShare) : Option DerecVSSError :=
  if s.commitment ≠ commitment then some .InconsistentCommitments
  else if s.encrypted_secret ≠ encrypted_secret then some .InconsistentCiphertexts
  else if merkleRootFrom sha256 s ≠ commitment then some .CorruptShares
  else none

/-- Embedding of the `for share in shares` loop of `detect_error` (utils.rs),
with its early returns. -/
def detectErrorLoop (sha256 : List ℕ → List ℕ) (commitment encrypted_secret : List ℕ) :
    List VSSShare → Option DerecVSSError
  | [] => none
  | s :: rest =>
      if s.commitment ≠ commitment then some .InconsistentCommitments
      else if s.encrypted_secret ≠ encrypted_secret then some .InconsistentCiphertexts
      else if merkleRootFrom sha256 s ≠ commitment then some .CorruptShares
      else detectErrorLoop sha256 commitment encrypted_secret rest

/-- Embedding of `detect_error` (utils.rs). The source reads `shares[0]` to
fix the reference commitment and ciphertext, which aborts on an empty vector;
the outer `Option` marks that abort. -/
def detect_error (sha256 : List ℕ → List ℕ) :
    List VSSShare → Option (Option DerecVSSError)
  | [] => none
  | s0 :: rest =>
      some (detectErrorLoop sha256 s0.commitment s0.encrypted_secret (s0 :: rest))

theorem detectErrorLoop_eq_findSome (sha256 : List ℕ → List ℕ)
    (commitment encrypted_secret : List ℕ) (l : List VSSShare) :
    detectErrorLoop sha256 commitment encrypted_secret l =
      l.findSome? (shareCheck sha256 commitment encrypted_secret) := by
  induction l with
  | nil => rfl
  | cons s rest ih =>
      rw [detectErrorLoop, List.findSome?_cons]
      by_cases h1 : s.commitment ≠ commitment
      · simp [shareCheck, h1]
      by_cases h2 : s.encrypted_secret ≠ encrypted_secret
      · simp [shareCheck, h1, h2]
      by_cases h3 : merkleRootFrom sha256 s ≠ commitment
      · simp [shareCheck, h1, h2, h3]
      · simp [shareCheck, h1, h2, h3, ih]

theorem findSome_all_none_or_const {α β : Type} (f : α → Option β) (b : β)
    (l : List α) (hall : ∀ x ∈ l, f x = none ∨ f x = some b)
    (hex : ∃ x ∈ l, f x = some b) : l.findSome? f = some b := by
  induction l with
  | nil => exact absurd hex (by simp)
  | cons a rest ih =>
      rw [List.findSome?_cons]
      rcases hall a (by simp) with ha | ha
      · rw [ha]
        refine ih (fun x hx => hall x (by simp [hx])) ?_
        obtain ⟨x, hx, hfx⟩ := hex
        rcases List.mem_cons.mp hx with rfl | hx
        · rw [ha] at hfx
          exact absurd hfx (by simp)
        · exact ⟨x, hx, hfx⟩
      · rw [ha]

/-- C3 counterexample: two shares whose commitments differ, yet
`detect_error` reports `CorruptShares`, not `InconsistentCommitments`: the
first share already fails its Merkle check, and the loop checks share by
share, so the commitment inconsistency of the second share is never reached. -/
theorem detect_error_precedence_counterexample :
    (VSSShare.mk [] [] [0] [1] []).commitment ≠ (VSSShare.mk [] [] [0] [2] []).commitment
      ∧ detect_error (fun _ => [0])
          [VSSShare.mk [] [] [0] [1] [], VSSShare.mk [] [] [0] [2] []] =
          some (some .CorruptShares)
      ∧ some (some DerecVSSError.CorruptShares) ≠
          some (some DerecVSSError.InconsistentCommitments) := by
  refine ⟨by decide, rfl, by decide⟩

/-- C3 amended: `detect_error` scans the shares in order and, per share,
checks commitment equality with the first share, then ciphertext equality,
then the Merkle recomputation, returning the error of the first failing
check; it reports no error exactly when every share passes all three checks;
and when all commitments and all ciphertexts agree, a failing Merkle path
yields `CorruptShares`. -/
theorem detect_error_characterization (sha256 : List ℕ → List ℕ)
    (s0 : VSSShare) (rest : List VSSShare) :
    (detect_error sha256 (s0 :: rest) =
        some ((s0 :: rest).findSome?
          (shareCheck sha256 s0.commitment s0.encrypted_secret)))
      ∧ (detect_error sha256 (s0 :: rest) = some none ↔
          ∀ s ∈ s0 :: rest, s.commitment = s0.commitment
            ∧ s.encrypted_secret = s0.encrypted_secret
            ∧ merkleRootFrom sha256 s = s0.commitment)
      ∧ ((∀ s ∈ s0 :: rest, s.commitment = s0.commitment) →
         (∀ s ∈ s0 :: rest, s.encrypted_secret = s0.encrypted_secret) →
         (∃ s ∈ s0 :: rest, merkleRootFrom sha256 s ≠ s0.commitment) →
         detect_error sha256 (s0 :: rest) = some (some .CorruptShares)) := by
  have hloop := detectErrorLoop_eq_findSome sha256 s0.commitment s0.encrypted_secret
    (s0 :: rest)
  have hcheck_none : ∀ s, shareCheck sha256 s0.commitment s0.encrypted_secret s = none ↔
      (s.commitment = s0.commitment ∧ s.encrypted_secret = s0.encrypted_secret
        ∧ merkleRootFrom sha256 s = s0.commitment) := by
    intro s
    unfold shareCheck
    by_cases h1 : s.commitment = s0.commitment
    · by_cases h2 : s.encrypted_secret = s0.encrypted_secret
      · by_cases h3 : merkleRootFrom sha256 s = s0.commitment
        · simp [h1, h2, h3]
        · simp [h1, h2, h3]
      · simp [h1, h2]
    · simp [h1]
  refine ⟨by rw [detect_error, hloop], ?_, ?_⟩
  · rw [detect_error, hloop]
    simp only [Option.some.injEq]
    rw [List.findSome?_eq_none_iff]
    constructor
    · intro hall s hs
      exact (hcheck_none s).mp (hall s hs)
    · intro hall s hs
      exact (hcheck_none s).mpr (hall s hs)
  · intro hcomm henc hex
    rw [detect_error, hloop]
    congr 1
    refine findSome_all_none_or_const _ DerecVSSError.CorruptShares _ ?_ ?_
    · intro s hs
      unfold shareCheck
      rw [if_neg (by simp [hcomm s hs]), if_neg (by simp [henc s hs])]
      by_cases h3 : merkleRootFrom sha256 s = s0.commitment
      · simp [h3]
      · simp [h3]
    · obtain ⟨s, hs, hmerk⟩ := hex
      refine ⟨s, hs, ?_⟩
      unfold shareCheck
      rw [if_neg (by simp [hcomm s hs]), if_neg (by simp [henc s hs]), if_pos (by simp [hmerk])]

/-- C3 amended witness: a consistent two-share set with a failing Merkle path
on the second share. -/
theorem detect_error_characterization_witness :
    ((∀ s ∈ [VSSShare.mk [] [] [0] [1] [], VSSShare.mk [2] [] [0] [1] []],
        s.commitment = (VSSShare.mk [] [] [0] [1] []).commitment)
      ∧ (∀ s ∈ [VSSShare.mk [] [] [0] [1] [], VSSShare.mk [2] [] [0] [1] []],
          s.encrypted_secret = (VSSShare.mk [] [] [0] [1] []).encrypted_secret)
      ∧ (∃ s ∈ [VSSShare.mk [] [] [0] [1] [], VSSShare.mk [2] [] [0] [1] []],
          merkleRootFrom (fun l => l ++ [9]) s ≠ (VSSShare.mk [] [] [0] [1] []).commitment))
      ∧ detect_error (fun l => l ++ [9])
          [VSSShare.mk [] [] [0] [1] [], VSSShare.mk [2] [] [0] [1] []] =
          some (some .CorruptShares) := by
  refine ⟨⟨by decide, by decide, ⟨VSSShare.mk [] [] [0] [1] [], by decide, by decide⟩⟩, ?_⟩
  exact (detect_error_characterization (fun l => l ++ [9]) (VSSShare.mk [] [] [0] [1] [])
    [VSSShare.mk [2] [] [0] [1] []]).2.2 (by decide) (by decide)
    ⟨VSSShare.mk [] [] [0] [1] [], by decide, by decide⟩

/-! ## Recovery orchestrator (src/library/src/recovery/recovery.rs)

Protobuf decoding (`prost`) is external; the codec is abstracted as decode
and encode functions over the message records. The VSS envelope entry point
`vss::recover` also lives outside the given sources and is abstracted as a
function parameter, since only the per-response checks decide the claims. -/

/-- Embedding of the protobuf `SiblingHash { is_left, hash }`. -/
structure SiblingHash where
  is_left : Bool
  hash : List ℕ
deriving DecidableEq, Repr

/-- Embedding of `CommittedDeRecShare { de_rec_share, commitment, merkle_path }`. -/
structure CommittedDeRecShare where
  de_rec_share : List ℕ
  commitment : List ℕ
  merkle_path : List SiblingHash
deriving DecidableEq, Repr

/-- Embedding of `DeRecShare { encrypted_secret, x, y, secret_id, version }`. -/
structure DeRecShare where
  encrypted_secret : List ℕ
  x : List ℕ
  y : List ℕ
  secret_id : List ℕ
  version : Int
deriving DecidableEq, Repr

/-- Embedding of `GetShareResponseMessage`. -/
structure GetShareResponseMessage where
  share_algorithm : Int
  committed_de_rec_share : List ℕ
  result : Option DerecResult
deriving DecidableEq, Repr

/-- Abstraction of the external protobuf codec (`prost` encode/decode). -/
structure ProtoCodec where
  decCommitted : List ℕ → Option CommittedDeRecShare
  decDeRecShare : List ℕ → Option DeRecShare
  encCommitted : CommittedDeRecShare → List ℕ
  encDeRecShare : DeRecShare → List ℕ

/-- Embedding of `extract_share_from_response` (recovery.rs): require a
result with OK status, decode the `CommittedDeRecShare` and the inner
`DeRecShare`, require matching secret id and version, and build a `VSSShare`. -/
def extract_share_from_response (C : ProtoCodec) (response : GetShareResponseMessage)
    (secret_id : List ℕ) (version : Int) : Except String VSSShare :=
  match response.result with
  | none => .error "Response does not contain a result"
  | some result =>
      if result.status ≠ statusOk then .error "Share response indicates an error"
      else
        match C.decCommitted response.committed_de_rec_share with
        | none => .error "Failed to decode CommittedDeRecShare"
        | some committed_derec_share =>
            match C.decDeRecShare committed_derec_share.de_rec_share with
            | none => .error "Failed to decode DeRecShare"
            | some derec_share =>
                if derec_share.secret_id ≠ secret_id then
                  .error "Secret ID in response does not match the requested secret ID"
                else if derec_share.version ≠ version then
                  .error "Share version in response does not match the requested version"
                else
                  .ok ⟨derec_share.x, derec_share.y, derec_share.encrypted_secret,
                    committed_derec_share.commitment,
                    committed_derec_share.merkle_path.map (fun h => (h.is_left, h.hash))⟩

/-- Embedding of the share-collection loop of `recover_from_share_responses`:
the first extraction error aborts the whole call. -/
def collectShares (C : ProtoCodec) (responses : List GetShareResponseMessage)
    (secret_id : List ℕ) (version : Int) : Except String (List VSSShare) :=
  match responses with
  | [] => .ok []
  | r :: rest =>
      match extract_share_from_response C r secret_id version with
      | .error e => .error e
      | .ok share =>
          match collectShares C rest secret_id version with
          | .error e => .error e
          | .ok shares => .ok (share :: shares)

/-- Embedding of `recover_from_share_responses` (recovery.rs): collect one
share per response, then hand the shares to the VSS envelope recovery. -/
def recover_from_share_responses (C : ProtoCodec)
    (vssRecover : List VSSShare → Option (List ℕ))
    (responses : List GetShareResponseMessage)
    (secret_id : List ℕ) (version : Int) : Except String (List ℕ) :=
  match collectShares C responses secret_id version with
  | .error e => .error e
  | .ok shares =>
      match vssRecover shares with
      | none => .error "Failed to reconstruct secret from shares"
      | some s => .ok s

/-- The checks of `extract_share_from_response`, as one predicate: the
response carries an OK result, decodes at both layers, and matches the
requested secret id and version. -/
def responseOk (C : ProtoCodec) (r : GetShareResponseMessage)
    (secret_id : List ℕ) (version : Int) : Prop :=
  ∃ res, r.result = some res ∧ res.status = statusOk ∧
    ∃ cds, C.decCommitted r.committed_de_rec_share = some cds ∧
      ∃ ds, C.decDeRecShare cds.de_rec_share = some ds ∧
        ds.secret_id = secret_id ∧ ds.version = version

/-- C8: extraction succeeds only on a response passing every check, and one
failing response makes `recover_from_share_responses` return an error. -/
theorem recover_from_share_responses_checks (C : ProtoCodec)
    (vssRecover : List VSSShare → Option (List ℕ))
    (responses : List GetShareResponseMessage)
    (secret_id : List ℕ) (version : Int) :
    ((∃ r ∈ responses, ¬ responseOk C r secret_id version) →
        ∃ e, recover_from_share_responses C vssRecover responses secret_id version =
          .error e)
      ∧ ∀ (r : GetShareResponseMessage) (share : VSSShare),
          extract_share_from_response C r secret_id version = .ok share →
          responseOk C r secret_id version := by
  have hextract : ∀ (r : GetShareResponseMessage) (share : VSSShare),
      extract_share_from_response C r secret_id version = .ok share →
      responseOk C r secret_id version := by
    intro r share hok
    unfold extract_share_from_response at hok
    split at hok
    · exact absurd hok (by simp)
    rename_i res hres
    rw [ite_not] at hok
    split at hok
    · split at hok
      · exact absurd hok (by simp)
      rename_i hst cds hcds
      split at hok
      · exact absurd hok (by simp)
      rename_i ds hds
      rw [ite_not] at hok
      split at hok
      · rw [ite_not] at hok
        split at hok
        · rename_i hsid hver
          exact ⟨res, hres, by assumption, cds, hcds, ds, hds, hsid, hver⟩
        · exact absurd hok (by simp)
      · exact absurd hok (by simp)
    · exact absurd hok (by simp)
  refine ⟨?_, hextract⟩
  intro hex
  obtain ⟨r, hr, hbad⟩ := hex
  have hcollect : ∀ resp : List GetShareResponseMessage, r ∈ resp →
      ∃ e, collectShares C resp secret_id version = .error e := by
    intro resp
    induction resp with
    | nil =>
        intro hmem
        exact absurd hmem (by simp)
    | cons a rest ih =>
        intro hmem
        rcases List.mem_cons.mp hmem with rfl | hr2
        · rcases hres : extract_share_from_response C r secret_id version with e | share
          · exact ⟨e, by rw [collectShares, hres]⟩
          · exact absurd (hextract r share hres) hbad
        · rcases hres : extract_share_from_response C a secret_id version with e | share
          · exact ⟨e, by rw [collectShares, hres]⟩
          · obtain ⟨e, he⟩ := ih hr2
            exact ⟨e, by rw [collectShares, hres, he]⟩
  obtain ⟨e, he⟩ := hcollect responses hr
  exact ⟨e, by rw [recover_from_share_responses, he]⟩

/-- C8 witness: a response without a result makes recovery fail. -/
theorem recover_from_share_responses_checks_witness :
    (∃ r ∈ [GetShareResponseMessage.mk 0 [] none],
        ¬ responseOk ⟨fun _ => none, fun _ => none, fun _ => [], fun _ => []⟩ r [] 1)
      ∧ ∃ e, recover_from_share_responses
          ⟨fun _ => none, fun _ => none, fun _ => [], fun _ => []⟩
          (fun _ => none) [GetShareResponseMessage.mk 0 [] none] [] 1 = .error e := by
  have hbad : ¬ responseOk ⟨fun _ => none, fun _ => none, fun _ => [], fun _ => []⟩
      (GetShareResponseMessage.mk 0 [] none) [] 1 := by
    intro h
    obtain ⟨res, hres, _⟩ := h
    exact absurd hres (by simp)
  refine ⟨⟨GetShareResponseMessage.mk 0 [] none, by simp, hbad⟩, ?_⟩
  exact (recover_from_share_responses_checks
    ⟨fun _ => none, fun _ => none, fun _ => [], fun _ => []⟩ (fun _ => none)
    [GetShareResponseMessage.mk 0 [] none] [] 1).1
    ⟨GetShareResponseMessage.mk 0 [] none, by simp, hbad⟩

/-! ## Sharing orchestrator (src/library/src/sharing/sharing.rs) -/

/-- Embedding of `StoreShareRequestMessage`. -/
structure StoreShareRequestMessage where
  share : List ℕ
  share_algorithm : Int
  version : Int
  keep_list : List Int
  version_description : String
deriving DecidableEq, Repr

/-- Modelled from the spec: the VSS envelope entry point `vss::share` lives
in the VSS module root (`vss/mod.rs`), which is absent from the given
sources — only its callers (sharing.rs) and helpers (shamir.rs, utils.rs)
are present. Per §4.6, §4.7 and the §9 design note "Threshold ≥ 1 and ≤ n is
the only validity check on (t, n)", the call fails exactly when the access
structure violates `1 ≤ t ≤ n`, and otherwise produces the `n` envelope
shares; the share construction itself is abstracted as the parameter `mk`. -/
def vss_share (mk : ℕ → ℕ → List ℕ → List ℕ → List VSSShare)
    (t n : ℕ) (data entropy : List ℕ) : Option (List VSSShare) :=
  if 1 ≤ t ∧ t ≤ n then some (mk t n data entropy) else none

/-- Embedding of `protect_secret` (sharing.rs): run the VSS envelope with
`n = |channels|`, fail if it fails, and otherwise pair channels with shares
by position, wrapping each share as DeRecShare, then CommittedDeRecShare,
then StoreShareRequestMessage. The OS entropy read is passed explicitly; the
output map is represented by its insertion list. -/
def protect_secret (C : ProtoCodec) (mk : ℕ → ℕ → List ℕ → List ℕ → List VSSShare)
    (secret_id secret_data : List ℕ) (channels : List ℕ) (threshold : ℕ)
    (version : Int) (keep_list : Option (List Int)) (description : Option String)
    (entropy : List ℕ) :
    Except String (List (ℕ × StoreShareRequestMessage)) :=
  match vss_share mk threshold channels.length secret_data entropy with
  | none => .error "VSS failed to generate shares"
  | some vss_shares =>
      .ok ((channels.zip vss_shares).map (fun cs =>
        (cs.1,
          { share := C.encCommitted
              ⟨C.encDeRecShare
                ⟨cs.2.encrypted_secret, cs.2.x, cs.2.y, secret_id, version⟩,
                cs.2.commitment,
                cs.2.merkle_path.map (fun bh => ⟨bh.1, bh.2⟩)⟩
            share_algorithm := 0
            version := version
            keep_list := keep_list.getD []
            version_description := description.getD "" })))

/-- C2: `protect_secret` fails whenever the number of channels is strictly
smaller than the threshold, because the VSS envelope rejects `t > n`. -/
theorem protect_secret_threshold_unsatisfiable (C : ProtoCodec)
    (mk : ℕ → ℕ → List ℕ → List ℕ → List VSSShare)
    (secret_id secret_data : List ℕ) (channels : List ℕ) (threshold : ℕ)
    (version : Int) (keep_list : Option (List Int)) (description : Option String)
    (entropy : List ℕ) (h : channels.length < threshold) :
    protect_secret C mk secret_id secret_data channels threshold version
      keep_list description entropy = .error "VSS failed to generate shares" := by
  unfold protect_secret vss_share
  rw [if_neg (by omega)]

/-- C2 witness: two channels, threshold three. -/
theorem protect_secret_threshold_unsatisfiable_witness :
    ([5, 6] : List ℕ).length < 3
      ∧ protect_secret ⟨fun _ => none, fun _ => none, fun _ => [], fun _ => []⟩
          (fun _ _ _ _ => []) [1] [2] [5, 6] 3 1 none none [] =
          .error "VSS failed to generate shares" := by
  exact ⟨by decide,
    protect_secret_threshold_unsatisfiable
      ⟨fun _ => none, fun _ => none, fun _ => [], fun _ => []⟩
      (fun _ _ _ _ => []) [1] [2] [5, 6] 3 1 none none [] (by decide)⟩

/-! ## Shamir secret sharing (src/cryptography/src/vss/shamir.rs)

The field `ark_bw6_761::Fr` is `ZMod p` for its 377-bit prime modulus; the
embedding is parametric in `p`. The csprng is modelled as the stream of field
elements it produces (`rng i` is draw number `i`), matching the threading of
`F::rand` calls in the source: first the `t` coefficient draws, then the `n`
abscissa draws. Compressed field serialization round trips are identities, so
shares are field-element pairs. -/

/-- Evaluation of the arkworks `DensePolynomial` with the given coefficient
list (low coefficient first), in Horner form. -/
def poly_evaluate (p : ℕ) (coeffs : List (ZMod p)) (x : ZMod p) : ZMod p :=
  coeffs.foldr (fun c acc => c + x * acc) 0

/-- Coefficient list built by `share` (shamir.rs): `t` random draws with the
zeroth coefficient replaced by the secret read as a big-endian field element
(the `from_bigint` unwrap needs the secret value below `p`, automatic at the
377-bit source modulus). -/
def shareCoeffs (p : ℕ) (secret : List ℕ) (t : ℕ) (rng : ℕ → ZMod p) :
    List (ZMod p) :=
  (((List.range t).map rng).set 0
    ((bitsToNatBE (bytes_to_bits_be secret) : ℕ) : ZMod p))

/-- Embedding of `share` (shamir.rs): draw the coefficient list, then emit
`n` evaluations of the polynomial at fresh random abscissae. -/
def share (p : ℕ) (secret : List ℕ) (t n : ℕ) (rng : ℕ → ZMod p) :
    List (ZMod p × ZMod p) :=
  (List.range n).map (fun j =>
    (rng (t + j), poly_evaluate p (shareCoeffs p secret t rng) (rng (t + j))))

/-- Embedding of `lagrange_coefficients` (shamir.rs): the double loop over
the share indices, accumulating the product of `(x - x_j) / (x_i - x_j)`
over `j ≠ i`. The primality instance provides the field division of the
source. -/
def lagrange_coefficients (p : ℕ) [Fact p.Prime] (xs : List (ZMod p)) (x : ZMod p) :
    List (ZMod p) :=
  (List.range xs.length).map (fun i =>
    (List.range xs.length).foldl
      (fun l_i j =>
        if i ≠ j then l_i * ((x - xs.getD j 0) / (xs.getD i 0 - xs.getD j 0)) else l_i)
      1)

/-- Embedding of `recover` (shamir.rs): Lagrange-interpolate at `x = 0` and
return the trailing 32 bytes of the 48-byte big-endian field encoding. The
arkworks field division calls `inverse().unwrap()`, which aborts on a zero
denominator; duplicated x-coordinates therefore abort the call, marked by
`none`. -/
def recover (p : ℕ) [Fact p.Prime] (shares : List (ZMod p × ZMod p)) :
    Option (List ℕ) :=
  let xs := shares.map Prod.fst
  let ys := shares.map Prod.snd
  if xs.Nodup then
    let lagrange_coeffs := lagrange_coefficients p xs 0
    let secret := (ys.zip lagrange_coeffs).foldl (fun acc ab => acc + ab.1 * ab.2) 0
    let secret_bytes := natToBytesBE 48 secret.val
    some (secret_bytes.drop (secret_bytes.length - 32))
  else
    none

/-- C6: on a share list with two equal x-coordinates the Lagrange loop
divides by zero and the arkworks `inverse().unwrap()` aborts the program;
`recover` returns `[u8; 32]` directly and has no error channel at all, so no
reconstruction error reaches the caller. -/
theorem recover_duplicate_x_aborts (p : ℕ) [Fact p.Prime]
    (shares : List (ZMod p × ZMod p))
    (h : ¬ (shares.map Prod.fst).Nodup) : recover p shares = none := by
  simp only [recover, if_neg h]

/-- Primality of the witness modulus. -/
instance fact_prime_7 : Fact (Nat.Prime 7) :=
  ⟨by norm_num⟩

/-- C6 witness: two shares at the same x-coordinate abort recovery. -/
theorem recover_duplicate_x_aborts_witness :
    ¬ (([((1 : ZMod 7), (1 : ZMod 7)), (1, 2)].map Prod.fst).Nodup)
      ∧ recover 7 [((1 : ZMod 7), (1 : ZMod 7)), (1, 2)] = none := by
  exact ⟨by decide, recover_duplicate_x_aborts 7 [(1, 1), (1, 2)] (by decide)⟩

theorem foldrPoly_eval (p : ℕ) (coeffs : List (ZMod p)) (x : ZMod p) :
    (coeffs.foldr (fun c q => Polynomial.C c + Polynomial.X * q) 0).eval x =
      poly_evaluate p coeffs x := by
  induction coeffs with
  | nil => simp [poly_evaluate]
  | cons c cs ih =>
      simp only [poly_evaluate, List.foldr_cons] at ih ⊢
      simp [ih]

theorem foldrPoly_degree (p : ℕ) [Fact p.Prime] (coeffs : List (ZMod p)) :
    (coeffs.foldr (fun c q => Polynomial.C c + Polynomial.X * q) 0).degree <
      (coeffs.length : WithBot ℕ) := by
  induction coeffs with
  | nil =>
      simp only [List.foldr_nil, Polynomial.degree_zero, List.length_nil]
      exact WithBot.bot_lt_coe 0
  | cons c cs ih =>
      rw [List.foldr_cons]
      refine lt_of_le_of_lt (Polynomial.degree_add_le _ _) (max_lt ?_ ?_)
      · refine lt_of_le_of_lt (Polynomial.degree_C_le) ?_
        exact_mod_cast Nat.cast_lt.mpr (Nat.succ_pos cs.length)
      · rw [Polynomial.degree_mul, Polynomial.degree_X]
        calc 1 + (cs.foldr (fun c q => Polynomial.C c + Polynomial.X * q) 0).degree
            < 1 + (cs.length : WithBot ℕ) :=
              WithBot.add_lt_add_left (by simp) ih
          _ = ((cs.length + 1 : ℕ) : WithBot ℕ) := by
              rw [add_comm]
              exact_mod_cast rfl
          _ = (((c :: cs).length : ℕ) : WithBot ℕ) := by rw [List.length_cons]

theorem foldrPoly_coeff_zero (p : ℕ) (c : ZMod p) (cs : List (ZMod p)) :
    (((c :: cs).foldr (fun c q => Polynomial.C c + Polynomial.X * q) 0)).coeff 0 = c := by
  rw [List.foldr_cons, Polynomial.coeff_add, Polynomial.coeff_C_zero,
    Polynomial.mul_coeff_zero, Polynomial.coeff_X_zero, zero_mul, add_zero]

theorem foldl_guard_mul (p : ℕ) (g : ℕ → ZMod p) (i : ℕ) (l : List ℕ) (a : ZMod p) :
    l.foldl (fun acc j => if i ≠ j then acc * g j else acc) a =
      a * (l.map (fun j => if i ≠ j then g j else 1)).prod := by
  induction l generalizing a with
  | nil => simp
  | cons j l ih =>
      by_cases h : i ≠ j
      · simp only [List.foldl_cons, List.map_cons, List.prod_cons, if_pos h, ih, mul_assoc]
      · simp only [List.foldl_cons, List.map_cons, List.prod_cons, if_neg h, ih, one_mul]

theorem prod_ite_erase (p : ℕ) (m i : ℕ) (g : ℕ → ZMod p) :
    ∏ j ∈ Finset.range m, (if i ≠ j then g j else 1) =
      ∏ j ∈ (Finset.range m).erase i, g j := by
  by_cases hi : i ∈ Finset.range m
  · rw [← Finset.mul_prod_erase (Finset.range m) (fun j => if i ≠ j then g j else 1) hi]
    rw [if_neg (by simp)]
    rw [one_mul]
    refine Finset.prod_congr rfl ?_
    intro j hj
    rw [if_pos (Ne.symm (Finset.mem_erase.mp hj).1)]
  · rw [Finset.erase_eq_of_not_mem hi]
    refine Finset.prod_congr rfl ?_
    intro j hj
    have hij : i ≠ j := fun h => hi (h ▸ hj)
    rw [if_pos hij]

theorem lagrange_coefficients_length (p : ℕ) [Fact p.Prime] (xs : List (ZMod p))
    (x : ZMod p) : (lagrange_coefficients p xs x).length = xs.length := by
  simp [lagrange_coefficients]

theorem lagrange_coefficients_getElem (p : ℕ) [Fact p.Prime] (xs : List (ZMod p))
    (x : ZMod p) (i : ℕ) (hi : i < (lagrange_coefficients p xs x).length) :
    (lagrange_coefficients p xs x)[i] =
      ∏ j ∈ (Finset.range xs.length).erase i,
        ((x - xs.getD j 0) / (xs.getD i 0 - xs.getD j 0)) := by
  unfold lagrange_coefficients at hi ⊢
  rw [List.getElem_map, List.getElem_range, foldl_guard_mul, one_mul]
  rw [show ((List.range xs.length).map
      (fun j => if i ≠ j then (x - xs.getD j 0) / (xs.getD i 0 - xs.getD j 0) else 1)).prod =
      ∏ j ∈ Finset.range xs.length,
        (if i ≠ j then (x - xs.getD j 0) / (xs.getD i 0 - xs.getD j 0) else 1) from rfl]
  rw [prod_ite_erase]

theorem eval_basis_range (p : ℕ) [Fact p.Prime] (m i : ℕ) (v : ℕ → ZMod p) (x : ZMod p) :
    Polynomial.eval x (Lagrange.basis (Finset.range m) v i) =
      ∏ j ∈ (Finset.range m).erase i, ((x - v j) / (v i - v j)) := by
  rw [Lagrange.basis, Polynomial.eval_prod]
  refine Finset.prod_congr rfl ?_
  intro j hj
  simp [Lagrange.basisDivisor, div_eq_mul_inv, mul_comm]

theorem foldl_add_mul (p : ℕ) (l : List (ZMod p × ZMod p)) (a : ZMod p) :
    l.foldl (fun acc ab => acc + ab.1 * ab.2) a =
      a + (l.map (fun ab => ab.1 * ab.2)).sum := by
  induction l generalizing a with
  | nil => simp
  | cons ab l ih =>
      simp only [List.foldl_cons, List.map_cons, List.sum_cons, ih, add_assoc]

theorem sum_zip_getD (p : ℕ) (l1 l2 : List (ZMod p)) (h : l1.length = l2.length) :
    ((l1.zip l2).map (fun ab => ab.1 * ab.2)).sum =
      ∑ i ∈ Finset.range l1.length, l1.getD i 0 * l2.getD i 0 := by
  induction l1 generalizing l2 with
  | nil => simp
  | cons a l1 ih =>
      match l2 with
      | [] => exact absurd h (by simp)
      | b :: l2 =>
          rw [List.zip_cons_cons, List.map_cons, List.sum_cons, List.length_cons,
            Finset.sum_range_succ']
          simp only [List.getD_cons_succ, List.getD_cons_zero]
          rw [ih l2 (by simpa using h)]
          ring

theorem nodup_getD_injOn (p : ℕ) (xs : List (ZMod p)) (h : xs.Nodup) :
    Set.InjOn (fun j => xs.getD j 0) (Finset.range xs.length) := by
  intro i hi j hj heq
  simp only [Finset.coe_range, Set.mem_Iio] at hi hj
  simp only at heq
  rw [List.getD_eq_getElem xs 0 hi, List.getD_eq_getElem xs 0 hj] at heq
  exact (List.Nodup.getElem_inj_iff h).mp heq

theorem recover_sum_eq (p : ℕ) [Fact p.Prime] (P : Polynomial (ZMod p))
    (xs ys : List (ZMod p)) (hlen : ys.length = xs.length) (hnodup : xs.Nodup)
    (hdeg : P.degree < (xs.length : WithBot ℕ))
    (hy : ∀ i, (hi : i < xs.length) → ys.getD i 0 = P.eval (xs.getD i 0)) :
    ((ys.zip (lagrange_coefficients p xs 0)).map (fun ab => ab.1 * ab.2)).sum =
      P.eval 0 := by
  have hls : (lagrange_coefficients p xs 0).length = xs.length :=
    lagrange_coefficients_length p xs 0
  have hvs : Set.InjOn (fun j => xs.getD j 0) (Finset.range xs.length) :=
    nodup_getD_injOn p xs hnodup
  have hinterp : P = Lagrange.interpolate (Finset.range xs.length)
      (fun j => xs.getD j 0) (fun i => P.eval (xs.getD i 0)) := by
    apply Lagrange.eq_interpolate hvs
    rwa [Finset.card_range]
  have heval0 : P.eval 0 = ∑ i ∈ Finset.range xs.length,
      P.eval (xs.getD i 0) * Polynomial.eval 0
        (Lagrange.basis (Finset.range xs.length) (fun j => xs.getD j 0) i) := by
    conv_lhs => rw [hinterp]
    rw [Lagrange.interpolate_apply, Polynomial.eval_finset_sum]
    refine Finset.sum_congr rfl ?_
    intro i hi
    rw [Polynomial.eval_mul, Polynomial.eval_C]
  rw [sum_zip_getD p ys (lagrange_coefficients p xs 0) (by rw [hls, hlen]), heval0, hlen]
  refine Finset.sum_congr rfl ?_
  intro i hi
  have him : i < xs.length := Finset.mem_range.mp hi
  rw [hy i him]
  congr 1
  rw [List.getD_eq_getElem (lagrange_coefficients p xs 0) 0 (by rw [hls]; exact him)]
  rw [lagrange_coefficients_getElem p xs 0 i (by rw [hls]; exact him)]
  rw [eval_basis_range]

theorem shareCoeffs_length (p : ℕ) (secret : List ℕ) (t : ℕ) (rng : ℕ → ZMod p) :
    (shareCoeffs p secret t rng).length = t := by
  simp [shareCoeffs]

theorem shareCoeffs_cons (p : ℕ) (secret : List ℕ) (t : ℕ) (rng : ℕ → ZMod p)
    (ht : 1 ≤ t) :
    ∃ cs, shareCoeffs p secret t rng =
      ((bitsToNatBE (bytes_to_bits_be secret) : ℕ) : ZMod p) :: cs := by
  cases hr : (List.range t).map rng with
  | nil =>
      exfalso
      have := congrArg List.length hr
      simp at this
      omega
  | cons c0 cs =>
      refine ⟨cs, ?_⟩
      rw [shareCoeffs, hr]
      rfl

theorem share_length (p : ℕ) (secret : List ℕ) (t n : ℕ) (rng : ℕ → ZMod p) :
    (share p secret t n rng).length = n := by
  simp [share]

theorem share_mem_eval (p : ℕ) (secret : List ℕ) (t n : ℕ) (rng : ℕ → ZMod p)
    (e : ZMod p × ZMod p) (he : e ∈ share p secret t n rng) :
    e.2 = poly_evaluate p (shareCoeffs p secret t rng) e.1 := by
  simp only [share, List.mem_map, List.mem_range] at he
  obtain ⟨j, hj, rfl⟩ := he
  rfl

/-- C1: `share` returns `n` shares that are evaluations of a polynomial of
degree below `t` whose constant coefficient is the secret read as a field
element, and `recover` applied to any multisubset of at least `t` of those
shares with pairwise distinct x-coordinates returns the original 32-byte
secret. The hypothesis `bitsToNatBE (bytes_to_bits_be secret) < p` records
the `from_bigint` range condition, automatic at the 377-bit source modulus
for a 32-byte secret. -/
theorem shamir_share_recover_correct (p : ℕ) [Fact p.Prime]
    (secret : List ℕ) (hlen : secret.length = 32) (hbyte : ∀ b ∈ secret, b < 256)
    (hsp : bitsToNatBE (bytes_to_bits_be secret) < p)
    (t n : ℕ) (ht : 1 ≤ t) (htn : t ≤ n) (rng : ℕ → ZMod p) :
    (share p secret t n rng).length = n
      ∧ (∃ P : Polynomial (ZMod p), P.degree < (t : WithBot ℕ)
          ∧ P.coeff 0 = ((bitsToNatBE (bytes_to_bits_be secret) : ℕ) : ZMod p)
          ∧ ∀ e ∈ share p secret t n rng, e.2 = P.eval e.1)
      ∧ ∀ sub : List (ZMod p × ZMod p),
          (∀ e ∈ sub, e ∈ share p secret t n rng) →
          (sub.map Prod.fst).Nodup →
          t ≤ sub.length →
          recover p sub = some secret := by
  obtain ⟨cs, hcons⟩ := shareCoeffs_cons p secret t rng ht
  have hclen : (shareCoeffs p secret t rng).length = t := shareCoeffs_length p secret t rng
  refine ⟨share_length p secret t n rng,
    ⟨(shareCoeffs p secret t rng).foldr (fun c q => Polynomial.C c + Polynomial.X * q) 0,
      ?_, ?_, ?_⟩, ?_⟩
  · have hdeg := foldrPoly_degree p (shareCoeffs p secret t rng)
    rwa [hclen] at hdeg
  · rw [hcons]
    exact foldrPoly_coeff_zero p _ cs
  · intro e he
    rw [share_mem_eval p secret t n rng e he, foldrPoly_eval]
  · intro sub hsubmem hnodup hcard
    simp only [recover, if_pos hnodup, Option.some.injEq]
    have hmaplen : (sub.map Prod.fst).length = sub.length := List.length_map sub Prod.fst
    have hsum : ((List.map Prod.snd sub).zip
        (lagrange_coefficients p (List.map Prod.fst sub) 0)).foldl
        (fun acc ab => acc + ab.1 * ab.2) 0 =
        ((bitsToNatBE (bytes_to_bits_be secret) : ℕ) : ZMod p) := by
      rw [foldl_add_mul, zero_add]
      rw [recover_sum_eq p
        ((shareCoeffs p secret t rng).foldr
          (fun c q => Polynomial.C c + Polynomial.X * q) 0)
        (sub.map Prod.fst) (sub.map Prod.snd)
        (by rw [List.length_map, List.length_map])
        hnodup
        ?_ ?_]
      · rw [← Polynomial.coeff_zero_eq_eval_zero, hcons]
        exact foldrPoly_coeff_zero p _ cs
      · have hdeg := foldrPoly_degree p (shareCoeffs p secret t rng)
        rw [hclen] at hdeg
        refine lt_of_lt_of_le hdeg ?_
        rw [hmaplen]
        exact_mod_cast WithBot.coe_le_coe.mpr hcard
      · intro i hi
        have hi2 : i < sub.length := by rwa [hmaplen] at hi
        rw [List.getD_eq_getElem _ 0 hi,
          List.getD_eq_getElem _ 0 (by rwa [List.length_map])]
        rw [List.getElem_map, List.getElem_map]
        rw [foldrPoly_eval]
        exact share_mem_eval p secret t n rng sub[i]
          (hsubmem sub[i] (List.getElem_mem hi2))
    rw [hsum]
    rw [ZMod.val_cast_of_lt hsp]
    rw [natToBytesBE_length]
    rw [show (48 : ℕ) - 32 = 16 from rfl]
    rw [show (48 : ℕ) = 16 + 32 from rfl, natToBytesBE_split]
    rw [List.drop_left' (natToBytesBE_length 16 _)]
    have hmap : secret.map (· % 256) = secret := by
      rw [show secret.map (· % 256) = secret.map id from
        List.map_congr_left (fun b hb => Nat.mod_eq_of_lt (hbyte b hb)), List.map_id]
    rw [bitsToNatBE_bytes, hmap, ← hlen]
    exact natToBytesBE_bytesToNatBE secret hbyte

/-- C1 witness: a 32-byte secret of value 3 over the witness modulus 7, with
threshold and share count 1; the single share recovers the secret. -/
theorem shamir_share_recover_correct_witness :
    (List.replicate 31 0 ++ [3] : List ℕ).length = 32
      ∧ (∀ b ∈ (List.replicate 31 0 ++ [3] : List ℕ), b < 256)
      ∧ bitsToNatBE (bytes_to_bits_be (List.replicate 31 0 ++ [3])) < 7
      ∧ (∀ e ∈ [((5 : ZMod 7), (3 : ZMod 7))],
          e ∈ share 7 (List.replicate 31 0 ++ [3]) 1 1 (fun _ => 5))
      ∧ recover 7 [((5 : ZMod 7), (3 : ZMod 7))] =
          some (List.replicate 31 0 ++ [3]) := by
  refine ⟨by decide, by decide, by decide, by decide, ?_⟩
  exact (shamir_share_recover_correct 7 (List.replicate 31 0 ++ [3]) (by decide) (by decide)
    (by decide) 1 1 (by decide) (by decide) (fun _ => 5)).2.2
    [((5 : ZMod 7), (3 : ZMod 7))] (by decide) (by decide) (by decide)
